import Mathlib

/-!
Verification of the cash-distribution engine of the kasa repository.

The engine lives in `kasaproject/calc.py` with its data model in
`kasaproject/models.py`.  Python `Decimal` values are modelled as exact
rationals (`ℚ`); Python dicts are modelled as insertion-ordered association
lists (`DMap`) with first-match lookup and in-place overwrite, matching
`dict.get` / `d[k] = v` semantics.  Rounding to two decimal places with
`ROUND_HALF_UP` (ties away from zero) is modelled by `quantize`.
-/

namespace Kasa

/-- Model of `models.Shareholder`: a name together with a percentage entitlement. -/
structure Shareholder where
  name : String
  percent : ℚ
  deriving Repr, DecidableEq

/-- Model of `models.ResultRow`: the per-shareholder output row. -/
structure ResultRow where
  name : String
  percent : ℚ
  entitlement : ℚ
  advance : ℚ
  prev_carry : ℚ
  paid : ℚ
  new_carry : ℚ
  deriving Repr, DecidableEq

/-- Model of `models.DistributionResult`: the settlement result. -/
structure DistributionResult where
  month : String
  distributable : ℚ
  rows : List ResultRow
  total_entitlement : ℚ
  total_paid : ℚ
  deriving Repr, DecidableEq

/-- A Python `Dict[str, Decimal]`: an insertion-ordered association list. -/
abbrev DMap := List (String × ℚ)

/-- Model of `d.get(k)`: the value stored at key `k`, if any (first match). -/
def dget (m : DMap) (k : String) : Option ℚ :=
  (m.find? (fun p => p.1 == k)).map Prod.snd

/-- Model of `d.get(k, default)`. -/
def dgetD (m : DMap) (k : String) (v : ℚ) : ℚ :=
  (dget m k).getD v

/-- Model of `d[k] = v`: overwrite in place when the key exists, else append. -/
def dset (m : DMap) (k : String) (v : ℚ) : DMap :=
  if m.any (fun p => p.1 == k) then
    m.map (fun p => if p.1 == k then (k, v) else p)
  else
    m ++ [(k, v)]

/-- Model of `d.get(name, d.get(name.lower(), Decimal("0")))`: the engine's
exact-name-first, lowercase-fallback, default-zero lookup
(`calc.py` lines 52-53 and 67-68). -/
def lookup2 (m : DMap) (k : String) : ℚ :=
  dgetD m k (dgetD m k.toLower 0)

/-- Rounding with `ROUND_HALF_UP` to an integer: ties away from zero. -/
def roundHalfUp (q : ℚ) : ℤ :=
  if 0 ≤ q then ⌊q + 1 / 2⌋ else -⌊-q + 1 / 2⌋

/-- Model of `calc._quantize`: round to two decimal places, half away from zero. -/
def quantize (q : ℚ) : ℚ :=
  (roundHalfUp (q * 100) : ℚ) / 100

/-- Model of `calc.validate_shareholders`: error unless the percentages sum to
exactly 100. -/
def validate_shareholders (holders : List Shareholder) : Except String Unit :=
  let total_pct := holders.foldl (fun s h => s + h.percent) 0
  if total_pct ≠ 100 then
    Except.error "Hissedar yüzdeleri 100 değil"
  else
    Except.ok ()

/-- Model of `calc.compute_distribution` lines 44-45: the `entitlements` dict,
keyed by lowercased name. -/
def entitlementsOf (holders : List Shareholder) (distributable : ℚ) : DMap :=
  holders.foldl
    (fun m h => dset m h.name.toLower (distributable * h.percent / 100)) []

/-- Model of `calc.compute_distribution` line 54: one shareholder's raw balance
`hak - avans + prev_carry`, with `hak` read from the `entitlements` dict. -/
def rawOf (ents : DMap) (advances carry : DMap) (h : Shareholder) : ℚ :=
  dgetD ents h.name.toLower 0 - lookup2 advances h.name + lookup2 carry h.name

/-- Model of `calc.compute_distribution` lines 49-57 loop body: store the raw balance
under the lowercased name and accumulate the positive total. -/
def rawStep (ents : DMap) (advances carry : DMap) (st : DMap × ℚ)
    (h : Shareholder) : DMap × ℚ :=
  let raw := rawOf ents advances carry h
  (dset st.1 h.name.toLower raw, if raw > 0 then st.2 + raw else st.2)

/-- Model of `calc.compute_distribution` lines 47-57: the `raw_balances` dict and
`total_positive`. -/
def rawState (holders : List Shareholder) (ents : DMap)
    (advances carry : DMap) : DMap × ℚ :=
  holders.foldl (rawStep ents advances carry) ([], 0)

/-- Model of `calc.compute_distribution` lines 59-61: the shortfall scale. -/
def scaleOf (distributable total_positive : ℚ) : ℚ :=
  if total_positive > distributable ∧ total_positive > 0 then
    distributable / total_positive
  else
    1

/-- Model of `calc.compute_distribution` lines 64-86 loop body: accumulate
`total_paid` and append the result row. -/
def rowStep (ents raws : DMap) (advances carry : DMap) (scale : ℚ)
    (st : ℚ × List ResultRow) (h : Shareholder) : ℚ × List ResultRow :=
  let hak := dgetD ents h.name.toLower 0
  let avans := lookup2 advances h.name
  let prev_carry := lookup2 carry h.name
  let raw := dgetD raws h.name.toLower 0
  let pay0 := if raw > 0 then raw else 0
  let pay1 := if scale < 1 then pay0 * scale else pay0
  let pay := quantize pay1
  let new_carry := raw - pay
  (st.1 + pay,
    st.2 ++ [{ name := h.name, percent := h.percent, entitlement := quantize hak,
               advance := quantize avans, prev_carry := quantize prev_carry,
               paid := pay, new_carry := quantize new_carry }])

/-- Model of `calc.compute_distribution` lines 63-86: `total_paid` (unquantized)
and the list of rows. -/
def rowsState (holders : List Shareholder) (ents raws : DMap)
    (advances carry : DMap) (scale : ℚ) : ℚ × List ResultRow :=
  holders.foldl (rowStep ents raws advances carry scale) (0, [])

/-- Model of `calc.compute_distribution`: validation, entitlement computation,
raw balances, shortfall scaling, rounding, and aggregation. -/
def compute_distribution (month : String) (holders : List Shareholder)
    (total_cash keep_cash : ℚ) (advances carry : DMap) :
    Except String DistributionResult :=
  match validate_shareholders holders with
  | Except.error e => Except.error e
  | Except.ok _ =>
    if keep_cash < 0 then
      Except.error "Kasada bırakılacak tutar negatif olamaz."
    else
      let distributable := total_cash - keep_cash
      if distributable < 0 then
        Except.error "Dağıtılabilir kasa negatif olamaz."
      else
        let ents := entitlementsOf holders distributable
        let rs := rawState holders ents advances carry
        let scale := scaleOf distributable rs.2
        let tr := rowsState holders ents rs.1 advances carry scale
        Except.ok
          { month := month
            distributable := quantize distributable
            rows := tr.2
            total_entitlement :=
              quantize ((ents.map Prod.snd).foldl (fun s v => s + v) 0)
            total_paid := quantize tr.1 }

/-- Rebuild a carry dict from the returned rows: each row's `new_carry`
keyed by the row's name (how a caller persists the carry store). -/
def carryOf (rows : List ResultRow) : DMap :=
  rows.foldl (fun m row => dset m row.name row.new_carry) []

/-! ### Association-list lemmas -/

theorem dget_nil (k : String) : dget [] k = none := rfl

theorem dget_cons (p : String × ℚ) (t : DMap) (k : String) :
    dget (p :: t) k = if p.1 = k then some p.2 else dget t k := by
  by_cases h : p.1 = k <;> simp [dget, List.find?_cons, h]

theorem dget_append (m₁ m₂ : DMap) (k : String) :
    dget (m₁ ++ m₂) k = (dget m₁ k).or (dget m₂ k) := by
  cases h : dget m₁ k with
  | none =>
    simp only [dget, List.find?_append]
    simp only [dget] at h
    cases h2 : m₁.find? (fun p => p.1 == k) with
    | none => simp [h2]
    | some p => simp [h2] at h
  | some v =>
    simp only [dget, List.find?_append] at *
    cases h2 : m₁.find? (fun p => p.1 == k) with
    | none => simp [h2] at h
    | some p => simp [h2] at h ⊢; simp [h]

theorem dget_map_replace_ne (m : DMap) (k k' : String) (v : ℚ) (hne : k' ≠ k) :
    dget (m.map (fun p => if p.1 == k then (k, v) else p)) k' = dget m k' := by
  induction m with
  | nil => rfl
  | cons p t ih =>
    simp only [List.map_cons]
    by_cases hpk : p.1 = k
    · have hfp : (if p.1 == k then (k, v) else p) = (k, v) := by simp [hpk]
      rw [hfp, dget_cons, dget_cons]
      have h1 : ¬ ((k, v).1 = k') := fun h => hne (h.symm)
      have h2 : ¬ (p.1 = k') := by rw [hpk]; exact fun h => hne h.symm
      rw [if_neg h1, if_neg h2, ih]
    · have hfp : (if p.1 == k then (k, v) else p) = p := by simp [hpk]
      rw [hfp, dget_cons, dget_cons]
      by_cases hpk' : p.1 = k'
      · rw [if_pos hpk', if_pos hpk']
      · rw [if_neg hpk', if_neg hpk', ih]

theorem dget_map_replace_eq (m : DMap) (k : String) (v : ℚ)
    (hmem : m.any (fun p => p.1 == k) = true) :
    dget (m.map (fun p => if p.1 == k then (k, v) else p)) k = some v := by
  induction m with
  | nil => simp at hmem
  | cons p t ih =>
    simp only [List.map_cons]
    by_cases hpk : p.1 = k
    · have hfp : (if p.1 == k then (k, v) else p) = (k, v) := by simp [hpk]
      rw [hfp, dget_cons, if_pos rfl]
    · have hfp : (if p.1 == k then (k, v) else p) = p := by simp [hpk]
      rw [hfp, dget_cons, if_neg hpk]
      apply ih
      simpa [List.any_cons, hpk] using hmem

theorem dget_dset (m : DMap) (k : String) (v : ℚ) (k' : String) :
    dget (dset m k v) k' = if k' = k then some v else dget m k' := by
  unfold dset
  split
  · rename_i hmem
    by_cases hk : k' = k
    · subst hk
      rw [if_pos rfl, dget_map_replace_eq m k' v hmem]
    · rw [if_neg hk, dget_map_replace_ne m k k' v hk]
  · rename_i hmem
    rw [dget_append]
    by_cases hk : k' = k
    · subst hk
      have hnone : dget m k' = none := by
        unfold dget
        rw [List.find?_eq_none.mpr]
        · rfl
        intro p hp
        simp only [beq_iff_eq]
        intro hcontra
        exact hmem (List.any_eq_true.mpr ⟨p, hp, by simp [hcontra]⟩)
      rw [hnone, if_pos rfl, dget_cons, if_pos rfl]
      rfl
    · have h2 : dget [(k, v)] k' = none := by
        rw [dget_cons, if_neg (fun h => hk h.symm)]
        rfl
      rw [h2, if_neg hk, Option.or_none]

/-- Characterization of a dict built by a loop of overwriting insertions:
lookup returns the value of the last inserted element with the given key,
and falls back to the initial dict. -/
theorem dget_foldl_dset {α : Type} (keyf : α → String) (valf : α → ℚ) :
    ∀ (l : List α) (m₀ : DMap) (k : String),
      dget (l.foldl (fun m x => dset m (keyf x) (valf x)) m₀) k =
        ((l.reverse.find? (fun x => keyf x == k)).map valf).or (dget m₀ k) := by
  intro l
  induction l with
  | nil => intro m₀ k; simp
  | cons x t ih =>
    intro m₀ k
    simp only [List.foldl_cons, List.reverse_cons, List.find?_append]
    rw [ih]
    cases h : t.reverse.find? (fun y => keyf y == k) with
    | some y => simp [h]
    | none =>
      simp only [h, Option.none_or, Option.map_none, Option.none_or]
      rw [dget_dset]
      by_cases hk : k = keyf x
      · simp [List.find?_cons, hk]
      · have : ¬ (keyf x == k) = true := by simp; exact fun h => hk h.symm
        simp [List.find?_cons, this, hk]

/-- Building a dict from entries with pairwise-distinct keys just appends
every entry. -/
theorem foldl_dset_of_nodup {α : Type} (keyf : α → String) (valf : α → ℚ) :
    ∀ (l : List α) (m₀ : DMap),
      (∀ x ∈ l, m₀.any (fun p => p.1 == keyf x) = false) →
      (l.map keyf).Nodup →
      l.foldl (fun m x => dset m (keyf x) (valf x)) m₀ =
        m₀ ++ l.map (fun x => (keyf x, valf x)) := by
  intro l
  induction l with
  | nil => intro m₀ _ _; simp
  | cons x t ih =>
    intro m₀ habs hnd
    simp only [List.foldl_cons]
    have hx : m₀.any (fun p => p.1 == keyf x) = false := habs x (by simp)
    have hset : dset m₀ (keyf x) (valf x) = m₀ ++ [(keyf x, valf x)] := by
      simp [dset, hx]
    rw [hset]
    rw [List.map_cons, List.nodup_cons] at hnd
    have habs2 : ∀ y ∈ t, (m₀ ++ [(keyf x, valf x)]).any (fun p => p.1 == keyf y) = false := by
      intro y hy
      rw [List.any_append]
      have h1 := habs y (List.mem_cons_of_mem x hy)
      have h2 : ¬ keyf x = keyf y := by
        intro hc
        exact hnd.1 (hc ▸ List.mem_map_of_mem keyf hy)
      simp [h1, h2]
    rw [ih (m₀ ++ [(keyf x, valf x)]) habs2 hnd.2]
    simp

/-- In a list with pairwise-distinct keys, searching the reversed list for
the key of a member finds exactly that member. -/
theorem find?_reverse_of_nodup {α : Type} (keyf : α → String) :
    ∀ (l : List α) (x : α), x ∈ l → (l.map keyf).Nodup →
      l.reverse.find? (fun y => keyf y == keyf x) = some x := by
  intro l
  induction l with
  | nil => intro x hx; simp at hx
  | cons a t ih =>
    intro x hx hnd
    rw [List.map_cons, List.nodup_cons] at hnd
    simp only [List.reverse_cons, List.find?_append]
    rcases List.mem_cons.mp hx with rfl | hxt
    · have hnone : t.reverse.find? (fun y => keyf y == keyf x) = none := by
        rw [List.find?_eq_none]
        intro y hy
        simp only [beq_iff_eq]
        intro hc
        exact hnd.1 (hc ▸ List.mem_map_of_mem keyf (List.mem_reverse.mp hy))
      simp [hnone, List.find?_cons]
    · rw [ih x hxt hnd.2]
      simp

/-! ### Rounding lemmas -/

/-- Predicate for an exact two-decimal currency amount. -/
def isCents (q : ℚ) : Prop := ∃ z : ℤ, q = (z : ℚ) / 100

theorem floor_half : ⌊(1 / 2 : ℚ)⌋ = 0 := by
  rw [Int.floor_eq_zero_iff]
  constructor <;> norm_num

theorem roundHalfUp_intCast (z : ℤ) : roundHalfUp (z : ℚ) = z := by
  unfold roundHalfUp
  by_cases h : (0 : ℚ) ≤ (z : ℚ)
  · rw [if_pos h, add_comm, Int.floor_add_int, floor_half, zero_add]
  · rw [if_neg h]
    have : -(z : ℚ) = ((-z : ℤ) : ℚ) := by push_cast; ring
    rw [this, add_comm, Int.floor_add_int, floor_half, zero_add, neg_neg]

theorem quantize_cents (q : ℚ) (h : isCents q) : quantize q = q := by
  obtain ⟨z, rfl⟩ := h
  unfold quantize
  rw [div_mul_cancel₀ (z : ℚ) (by norm_num : (100 : ℚ) ≠ 0), roundHalfUp_intCast]

theorem isCents_quantize (q : ℚ) : isCents (quantize q) :=
  ⟨roundHalfUp (q * 100), rfl⟩

theorem quantize_idem (q : ℚ) : quantize (quantize q) = quantize q :=
  quantize_cents _ (isCents_quantize q)

theorem quantize_zero : quantize 0 = 0 := by
  have h : isCents 0 := ⟨0, by norm_num⟩
  exact quantize_cents 0 h

theorem quantize_nonneg (q : ℚ) (h : 0 ≤ q) : 0 ≤ quantize q := by
  unfold quantize roundHalfUp
  rw [if_pos (by positivity : (0 : ℚ) ≤ q * 100)]
  apply div_nonneg _ (by norm_num : (0 : ℚ) ≤ 100)
  have : (0 : ℤ) ≤ ⌊q * 100 + 1 / 2⌋ := by
    rw [Int.le_floor]
    push_cast
    linarith
  exact_mod_cast this

theorem quantize_le (q : ℚ) (h : 0 ≤ q) : quantize q ≤ q + 1 / 200 := by
  unfold quantize roundHalfUp
  rw [if_pos (by positivity : (0 : ℚ) ≤ q * 100)]
  have h1 : (⌊q * 100 + 1 / 2⌋ : ℚ) ≤ q * 100 + 1 / 2 := Int.floor_le _
  rw [div_le_iff₀ (by norm_num : (0 : ℚ) < 100)]
  linarith

theorem isCents_zero : isCents 0 := ⟨0, by norm_num⟩

theorem isCents_add (a b : ℚ) (ha : isCents a) (hb : isCents b) :
    isCents (a + b) := by
  obtain ⟨x, rfl⟩ := ha
  obtain ⟨y, rfl⟩ := hb
  exact ⟨x + y, by push_cast; ring⟩

theorem isCents_sum (l : List ℚ) (h : ∀ x ∈ l, isCents x) : isCents l.sum := by
  induction l with
  | nil => simpa using isCents_zero
  | cons a t ih =>
    rw [List.sum_cons]
    exact isCents_add _ _ (h a (by simp)) (ih (fun x hx => h x (List.mem_cons_of_mem a hx)))

/-! ### Loop characterizations -/

/-- Payout of one row as a function of the stored raw balance and the scale
(`calc.py` lines 69-73). -/
def payOf (raws : DMap) (scale : ℚ) (h : Shareholder) : ℚ :=
  let raw := dgetD raws h.name.toLower 0
  let pay0 := if raw > 0 then raw else 0
  quantize (if scale < 1 then pay0 * scale else pay0)

/-- One output row (`calc.py` lines 76-86). -/
def rowOf (ents raws : DMap) (advances carry : DMap) (scale : ℚ)
    (h : Shareholder) : ResultRow :=
  { name := h.name, percent := h.percent,
    entitlement := quantize (dgetD ents h.name.toLower 0),
    advance := quantize (lookup2 advances h.name),
    prev_carry := quantize (lookup2 carry h.name),
    paid := payOf raws scale h,
    new_carry := quantize (dgetD raws h.name.toLower 0 - payOf raws scale h) }

/-- New carry of a row as a function of the lowercased key alone. -/
def newCarryK (raws : DMap) (scale : ℚ) (k : String) : ℚ :=
  let raw := dgetD raws k 0
  let pay0 := if raw > 0 then raw else 0
  quantize (raw - quantize (if scale < 1 then pay0 * scale else pay0))

theorem payOf_key (r : DMap) (s : ℚ) (h h' : Shareholder)
    (hk : h.name.toLower = h'.name.toLower) : payOf r s h = payOf r s h' := by
  simp only [payOf, hk]

theorem rowOf_new_carry (e r a c : DMap) (s : ℚ) (h : Shareholder) :
    (rowOf e r a c s h).new_carry = newCarryK r s h.name.toLower := rfl

theorem rowStep_pair (e r a c : DMap) (s : ℚ) (t : ℚ) (rs : List ResultRow)
    (h : Shareholder) :
    rowStep e r a c s (t, rs) h = (t + payOf r s h, rs ++ [rowOf e r a c s h]) := rfl

theorem rawState_fst (e a c : DMap) :
    ∀ (hs : List Shareholder) (m : DMap) (t : ℚ),
      (hs.foldl (rawStep e a c) (m, t)).1 =
        hs.foldl (fun m2 h => dset m2 h.name.toLower (rawOf e a c h)) m := by
  intro hs
  induction hs with
  | nil => intro m t; rfl
  | cons h hs ih =>
    intro m t
    simp only [List.foldl_cons, rawStep]
    exact ih _ _

theorem rawState_snd (e a c : DMap) :
    ∀ (hs : List Shareholder) (m : DMap) (t : ℚ),
      (hs.foldl (rawStep e a c) (m, t)).2 =
        t + (hs.map (fun h => if rawOf e a c h > 0 then rawOf e a c h else 0)).sum := by
  intro hs
  induction hs with
  | nil => intro m t; simp
  | cons h hs ih =>
    intro m t
    simp only [List.foldl_cons, rawStep, List.map_cons, List.sum_cons]
    rw [ih]
    by_cases hpos : rawOf e a c h > 0
    · rw [if_pos hpos, if_pos hpos]; ring
    · rw [if_neg hpos, if_neg hpos]; ring

theorem rowsState_spec (e r a c : DMap) (s : ℚ) :
    ∀ (hs : List Shareholder) (t : ℚ) (rs : List ResultRow),
      hs.foldl (rowStep e r a c s) (t, rs) =
        (t + (hs.map (payOf r s)).sum, rs ++ hs.map (rowOf e r a c s)) := by
  intro hs
  induction hs with
  | nil => intro t rs; simp
  | cons h hs ih =>
    intro t rs
    simp only [List.foldl_cons, rowStep_pair, List.map_cons, List.sum_cons]
    rw [ih]
    rw [Prod.mk.injEq]
    refine ⟨by ring, by simp⟩

/-! ### Success-path characterization -/

/-- The entitlement dict built by a call of the engine. -/
def theEnts (hs : List Shareholder) (tc kc : ℚ) : DMap :=
  entitlementsOf hs (tc - kc)

/-- The raw-balance dict built by a call of the engine. -/
def theRaws (hs : List Shareholder) (tc kc : ℚ) (a c : DMap) : DMap :=
  (rawState hs (theEnts hs tc kc) a c).1

/-- The `total_positive` accumulator of a call of the engine. -/
def theTP (hs : List Shareholder) (tc kc : ℚ) (a c : DMap) : ℚ :=
  (rawState hs (theEnts hs tc kc) a c).2

/-- The shortfall scale of a call of the engine. -/
def theScale (hs : List Shareholder) (tc kc : ℚ) (a c : DMap) : ℚ :=
  scaleOf (tc - kc) (theTP hs tc kc a c)

theorem validate_ok (hs : List Shareholder)
    (hpct : hs.foldl (fun s h => s + h.percent) 0 = 100) :
    validate_shareholders hs = Except.ok () := by
  unfold validate_shareholders
  rw [if_neg]
  simp [hpct]

theorem compute_distribution_ok (m : String) (hs : List Shareholder)
    (tc kc : ℚ) (a c : DMap)
    (hpct : hs.foldl (fun s h => s + h.percent) 0 = 100)
    (hk : ¬ kc < 0) (hd : ¬ tc - kc < 0) :
    compute_distribution m hs tc kc a c = Except.ok
      { month := m
        distributable := quantize (tc - kc)
        rows := hs.map (rowOf (theEnts hs tc kc) (theRaws hs tc kc a c) a c
                  (theScale hs tc kc a c))
        total_entitlement :=
          quantize (((theEnts hs tc kc).map Prod.snd).foldl (fun s v => s + v) 0)
        total_paid :=
          quantize ((hs.map (payOf (theRaws hs tc kc a c)
            (theScale hs tc kc a c))).sum) } := by
  unfold compute_distribution
  rw [validate_ok hs hpct]
  simp only [if_neg hk, if_neg hd]
  simp only [theEnts, theRaws, theTP, theScale]
  have hrows : rowsState hs (entitlementsOf hs (tc - kc))
      (rawState hs (entitlementsOf hs (tc - kc)) a c).1 a c
      (scaleOf (tc - kc) (rawState hs (entitlementsOf hs (tc - kc)) a c).2) =
      ((hs.map (payOf (rawState hs (entitlementsOf hs (tc - kc)) a c).1
          (scaleOf (tc - kc) (rawState hs (entitlementsOf hs (tc - kc)) a c).2))).sum,
        hs.map (rowOf (entitlementsOf hs (tc - kc))
          (rawState hs (entitlementsOf hs (tc - kc)) a c).1 a c
          (scaleOf (tc - kc) (rawState hs (entitlementsOf hs (tc - kc)) a c).2))) := by
    unfold rowsState
    rw [rowsState_spec]
    simp
  rw [hrows]

theorem compute_distribution_ok_inv (m : String) (hs : List Shareholder)
    (tc kc : ℚ) (a c : DMap) (r : DistributionResult)
    (h : compute_distribution m hs tc kc a c = Except.ok r) :
    hs.foldl (fun s h2 => s + h2.percent) 0 = 100 ∧ ¬ kc < 0 ∧ ¬ tc - kc < 0 := by
  by_cases h1 : hs.foldl (fun s h2 => s + h2.percent) 0 = 100
  · by_cases h2 : kc < 0
    · exfalso
      unfold compute_distribution at h
      rw [validate_ok hs h1] at h
      simp [h2] at h
    · by_cases h3 : tc - kc < 0
      · exfalso
        unfold compute_distribution at h
        rw [validate_ok hs h1] at h
        simp [h2, h3] at h
      · exact ⟨h1, h2, h3⟩
  · exfalso
    unfold compute_distribution validate_shareholders at h
    simp [h1] at h

/-! ### Helper lemmas about the engine's quantities -/

/-- Payout of one row before rounding (`calc.py` lines 70-72). -/
def payPre (raws : DMap) (scale : ℚ) (h : Shareholder) : ℚ :=
  let raw := dgetD raws h.name.toLower 0
  let pay0 := if raw > 0 then raw else 0
  if scale < 1 then pay0 * scale else pay0

theorem payOf_eq_quantize (r : DMap) (s : ℚ) (h : Shareholder) :
    payOf r s h = quantize (payPre r s h) := rfl

theorem payPre_nonneg (r : DMap) (s : ℚ) (hs0 : 0 ≤ s) (h : Shareholder) :
    0 ≤ payPre r s h := by
  unfold payPre
  by_cases hraw : dgetD r h.name.toLower 0 > 0
  · simp only [if_pos hraw]
    by_cases hlt : s < 1
    · rw [if_pos hlt]; exact mul_nonneg (le_of_lt hraw) hs0
    · rw [if_neg hlt]; exact le_of_lt hraw
  · simp only [if_neg hraw]
    by_cases hlt : s < 1
    · rw [if_pos hlt]; simp
    · rw [if_neg hlt]

theorem payOf_nonneg (r : DMap) (s : ℚ) (hs0 : 0 ≤ s) (h : Shareholder) :
    0 ≤ payOf r s h := by
  rw [payOf_eq_quantize]
  exact quantize_nonneg _ (payPre_nonneg r s hs0 h)

theorem scaleOf_nonneg (d tp : ℚ) (hd : 0 ≤ d) : 0 ≤ scaleOf d tp := by
  unfold scaleOf
  split
  · rename_i hcond
    exact div_nonneg hd (le_of_lt hcond.2)
  · norm_num

theorem theScale_nonneg (hs : List Shareholder) (tc kc : ℚ) (a c : DMap)
    (hd : 0 ≤ tc - kc) : 0 ≤ theScale hs tc kc a c :=
  scaleOf_nonneg _ _ hd

theorem theTP_eq (hs : List Shareholder) (tc kc : ℚ) (a c : DMap) :
    theTP hs tc kc a c =
      (hs.map (fun h => if rawOf (theEnts hs tc kc) a c h > 0
        then rawOf (theEnts hs tc kc) a c h else 0)).sum := by
  unfold theTP rawState
  rw [rawState_snd]
  simp [theEnts]

theorem theTP_nonneg (hs : List Shareholder) (tc kc : ℚ) (a c : DMap) :
    0 ≤ theTP hs tc kc a c := by
  rw [theTP_eq]
  apply List.sum_nonneg
  intro x hx
  obtain ⟨h, _, rfl⟩ := List.mem_map.mp hx
  by_cases hraw : rawOf (theEnts hs tc kc) a c h > 0
  · rw [if_pos hraw]; exact le_of_lt hraw
  · rw [if_neg hraw]

theorem foldl_add_eq_sum (l : List ℚ) : ∀ (a : ℚ),
    l.foldl (fun s v => s + v) a = a + l.sum := by
  induction l with
  | nil => intro a; simp
  | cons x t ih =>
    intro a
    simp only [List.foldl_cons, List.sum_cons, ih]
    ring

theorem sum_map_add_const {α : Type} (l : List α) (f : α → ℚ) (cst : ℚ) :
    (l.map (fun x => f x + cst)).sum = (l.map f).sum + l.length * cst := by
  induction l with
  | nil => simp
  | cons x t ih =>
    simp only [List.map_cons, List.sum_cons, List.length_cons, ih]
    push_cast
    ring

/-! ### Lookups into the dicts the engine builds -/

theorem dget_entitlementsOf (hs : List Shareholder) (d : ℚ) (k : String) :
    dget (entitlementsOf hs d) k =
      (hs.reverse.find? (fun h => h.name.toLower == k)).map
        (fun h => d * h.percent / 100) := by
  unfold entitlementsOf
  rw [dget_foldl_dset (fun h : Shareholder => h.name.toLower)
    (fun h => d * h.percent / 100) hs [] k]
  simp [dget_nil]

theorem dget_theRaws (hs : List Shareholder) (tc kc : ℚ) (a c : DMap) (k : String) :
    dget (theRaws hs tc kc a c) k =
      (hs.reverse.find? (fun h => h.name.toLower == k)).map
        (rawOf (theEnts hs tc kc) a c) := by
  unfold theRaws rawState
  rw [rawState_fst]
  rw [dget_foldl_dset (fun h : Shareholder => h.name.toLower)
    (rawOf (theEnts hs tc kc) a c) hs [] k]
  simp [dget_nil]

theorem dget_carryOf (rows : List ResultRow) (k : String) :
    dget (carryOf rows) k =
      (rows.reverse.find? (fun row => row.name == k)).map ResultRow.new_carry := by
  unfold carryOf
  rw [dget_foldl_dset (fun row : ResultRow => row.name) ResultRow.new_carry rows [] k]
  simp [dget_nil]

theorem dget_ents_nodup (hs : List Shareholder) (d : ℚ) (h : Shareholder)
    (hmem : h ∈ hs) (hnd : (hs.map (fun x => x.name.toLower)).Nodup) :
    dget (entitlementsOf hs d) h.name.toLower = some (d * h.percent / 100) := by
  rw [dget_entitlementsOf]
  rw [find?_reverse_of_nodup (fun x : Shareholder => x.name.toLower) hs h hmem hnd]
  rfl

theorem dget_theRaws_nodup (hs : List Shareholder) (tc kc : ℚ) (a c : DMap)
    (h : Shareholder) (hmem : h ∈ hs)
    (hnd : (hs.map (fun x => x.name.toLower)).Nodup) :
    dget (theRaws hs tc kc a c) h.name.toLower =
      some (rawOf (theEnts hs tc kc) a c h) := by
  rw [dget_theRaws]
  rw [find?_reverse_of_nodup (fun x : Shareholder => x.name.toLower) hs h hmem hnd]
  rfl

/-! ### Claims -/

/-- C2: `compute_distribution` fails with a `DistributionError` if and only
if the percentages do not sum exactly to 100, or `keep_cash < 0`, or
`total_cash - keep_cash < 0`; otherwise it returns a complete
`DistributionResult` (an `Except` value is either an error or a complete
result, never both, and the error branches precede any payout computation). -/
theorem claim_C2_error_iff (m : String) (hs : List Shareholder) (tc kc : ℚ)
    (a c : DMap) :
    (∃ e, compute_distribution m hs tc kc a c = Except.error e) ↔
      (hs.foldl (fun s h => s + h.percent) 0 ≠ 100 ∨ kc < 0 ∨ tc - kc < 0) := by
  constructor
  · rintro ⟨e, he⟩
    by_contra hcon
    push_neg at hcon
    rw [compute_distribution_ok m hs tc kc a c hcon.1
      (not_lt.mpr hcon.2.1) (not_lt.mpr hcon.2.2)] at he
    exact Except.noConfusion he
  · intro hcond
    cases hcase : compute_distribution m hs tc kc a c with
    | error e => exact ⟨e, rfl⟩
    | ok r =>
      obtain ⟨h1, h2, h3⟩ := compute_distribution_ok_inv m hs tc kc a c r hcase
      rcases hcond with hc | hc | hc
      · exact absurd h1 hc
      · exact absurd hc h2
      · exact absurd hc h3

/-- C8: the engine is deterministic — two calls on identical inputs return
identical results (same value of the pure function). -/
theorem claim_C8_deterministic (m m2 : String) (hs hs2 : List Shareholder)
    (tc tc2 kc kc2 : ℚ) (a a2 c c2 : DMap)
    (hm : m = m2) (hh : hs = hs2) (htc : tc = tc2) (hkc : kc = kc2)
    (ha : a = a2) (hc : c = c2) :
    compute_distribution m hs tc kc a c =
      compute_distribution m2 hs2 tc2 kc2 a2 c2 := by
  rw [hm, hh, htc, hkc, ha, hc]

theorem claim_C8_deterministic_witness :
    compute_distribution "2024-01" [⟨"ali", 60⟩, ⟨"veli", 40⟩] 1000 0 [] [] =
      compute_distribution "2024-01" [⟨"ali", 60⟩, ⟨"veli", 40⟩] 1000 0 [] [] :=
  claim_C8_deterministic "2024-01" "2024-01" [⟨"ali", 60⟩, ⟨"veli", 40⟩]
    [⟨"ali", 60⟩, ⟨"veli", 40⟩] 1000 1000 0 0 [] [] [] []
    rfl rfl rfl rfl rfl rfl

/-- C10: in every successful call, every result row's `paid` field is
nonnegative: negative raw balances are clamped to zero, the scale is
nonnegative, and rounding preserves nonnegativity. -/
theorem claim_C10_paid_nonneg (m : String) (hs : List Shareholder)
    (tc kc : ℚ) (a c : DMap) (r : DistributionResult)
    (hok : compute_distribution m hs tc kc a c = Except.ok r) :
    ∀ row ∈ r.rows, 0 ≤ row.paid := by
  obtain ⟨h1, h2, h3⟩ := compute_distribution_ok_inv m hs tc kc a c r hok
  rw [compute_distribution_ok m hs tc kc a c h1 h2 h3] at hok
  injection hok with hok
  rw [← hok]
  intro row hrow
  obtain ⟨h0, _, rfl⟩ := List.mem_map.mp hrow
  show 0 ≤ payOf (theRaws hs tc kc a c) (theScale hs tc kc a c) h0
  exact payOf_nonneg _ _ (theScale_nonneg hs tc kc a c (not_lt.mp h3)) h0

theorem claim_C10_paid_nonneg_witness :
    compute_distribution "2024-01" [⟨"ali", 60⟩, ⟨"veli", 40⟩] 1000 0 [] [] =
      Except.ok
        { month := "2024-01", distributable := 1000,
          rows := [⟨"ali", 60, 600, 0, 0, 600, 0⟩, ⟨"veli", 40, 400, 0, 0, 400, 0⟩],
          total_entitlement := 1000, total_paid := 1000 } ∧
    ∀ row ∈ [(⟨"ali", 60, 600, 0, 0, 600, 0⟩ : ResultRow),
             ⟨"veli", 40, 400, 0, 0, 400, 0⟩], (0 : ℚ) ≤ row.paid := by
  refine ⟨?_, ?_⟩
  · with_unfolding_all rfl
  · exact claim_C10_paid_nonneg "2024-01" [⟨"ali", 60⟩, ⟨"veli", 40⟩] 1000 0 [] []
      { month := "2024-01", distributable := 1000,
        rows := [⟨"ali", 60, 600, 0, 0, 600, 0⟩, ⟨"veli", 40, 400, 0, 0, 400, 0⟩],
        total_entitlement := 1000, total_paid := 1000 } (by with_unfolding_all rfl)

/-- C4 as stated fails: at a successful call with `distributable = 0` and a
positive carry, `totalPositiveRaw > distributable` and
`totalPositiveRaw > 0` hold, yet the scale is `0`, not a value strictly
between 0 and 1. -/
theorem claim_C4_counterexample :
    (compute_distribution "2024-01" [⟨"a", 100⟩] 0 0 [] [("a", 5)]).toOption.isSome
      = true ∧
    theTP [⟨"a", 100⟩] 0 0 [] [("a", 5)] > 0 - 0 ∧
    theTP [⟨"a", 100⟩] 0 0 [] [("a", 5)] > 0 ∧
    theScale [⟨"a", 100⟩] 0 0 [] [("a", 5)] = 0 ∧
    ¬(0 < theScale [⟨"a", 100⟩] 0 0 [] [("a", 5)]) := by
  have htp : theTP [⟨"a", 100⟩] 0 0 [] [("a", 5)] = 5 := by with_unfolding_all rfl
  have hsc : theScale [⟨"a", 100⟩] 0 0 [] [("a", 5)] = 0 := by with_unfolding_all rfl
  refine ⟨by with_unfolding_all rfl, ?_, ?_, hsc, ?_⟩
  · rw [htp]; norm_num
  · rw [htp]; norm_num
  · rw [hsc]; norm_num

/-- C4 (amended): in every successful call where
`totalPositiveRaw > distributable` and `totalPositiveRaw > 0`, the scale
equals `distributable / totalPositiveRaw` and lies in `[0, 1)` — it is
strictly positive whenever `distributable > 0` (the original strict lower
bound fails only when `distributable = 0`); in every other case the scale
equals 1. -/
theorem claim_C4_amended (m : String) (hs : List Shareholder) (tc kc : ℚ)
    (a c : DMap) (r : DistributionResult)
    (hok : compute_distribution m hs tc kc a c = Except.ok r) :
    (theTP hs tc kc a c > tc - kc ∧ theTP hs tc kc a c > 0 →
      theScale hs tc kc a c = (tc - kc) / theTP hs tc kc a c ∧
      0 ≤ theScale hs tc kc a c ∧ theScale hs tc kc a c < 1 ∧
      (0 < tc - kc → 0 < theScale hs tc kc a c)) ∧
    (¬(theTP hs tc kc a c > tc - kc ∧ theTP hs tc kc a c > 0) →
      theScale hs tc kc a c = 1) := by
  obtain ⟨h1, h2, h3⟩ := compute_distribution_ok_inv m hs tc kc a c r hok
  have hd : 0 ≤ tc - kc := not_lt.mp h3
  constructor
  · intro hcond
    unfold theScale scaleOf
    rw [if_pos hcond]
    exact ⟨rfl, div_nonneg hd (le_of_lt hcond.2),
      (div_lt_one hcond.2).mpr hcond.1, fun hdpos => div_pos hdpos hcond.2⟩
  · intro hcond
    unfold theScale scaleOf
    rw [if_neg hcond]

theorem claim_C4_amended_witness :
    compute_distribution "2024-01" [⟨"a", 50⟩, ⟨"b", 50⟩] 100 0 [] [("a", 150)] =
      Except.ok
        { month := "2024-01", distributable := 100,
          rows := [⟨"a", 50, 50, 0, 150, 80, 120⟩, ⟨"b", 50, 50, 0, 0, 20, 30⟩],
          total_entitlement := 100, total_paid := 100 } ∧
    ((theTP [⟨"a", 50⟩, ⟨"b", 50⟩] 100 0 [] [("a", 150)] > 100 - 0 ∧
      theTP [⟨"a", 50⟩, ⟨"b", 50⟩] 100 0 [] [("a", 150)] > 0 →
      theScale [⟨"a", 50⟩, ⟨"b", 50⟩] 100 0 [] [("a", 150)] =
        (100 - 0) / theTP [⟨"a", 50⟩, ⟨"b", 50⟩] 100 0 [] [("a", 150)] ∧
      0 ≤ theScale [⟨"a", 50⟩, ⟨"b", 50⟩] 100 0 [] [("a", 150)] ∧
      theScale [⟨"a", 50⟩, ⟨"b", 50⟩] 100 0 [] [("a", 150)] < 1 ∧
      ((0 : ℚ) < 100 - 0 →
        0 < theScale [⟨"a", 50⟩, ⟨"b", 50⟩] 100 0 [] [("a", 150)])) ∧
    (¬(theTP [⟨"a", 50⟩, ⟨"b", 50⟩] 100 0 [] [("a", 150)] > 100 - 0 ∧
        theTP [⟨"a", 50⟩, ⟨"b", 50⟩] 100 0 [] [("a", 150)] > 0) →
      theScale [⟨"a", 50⟩, ⟨"b", 50⟩] 100 0 [] [("a", 150)] = 1)) := by
  constructor
  · with_unfolding_all rfl
  · exact claim_C4_amended "2024-01" [⟨"a", 50⟩, ⟨"b", 50⟩] 100 0 [] [("a", 150)]
      { month := "2024-01", distributable := 100,
        rows := [⟨"a", 50, 50, 0, 150, 80, 120⟩, ⟨"b", 50, 50, 0, 0, 20, 30⟩],
        total_entitlement := 100, total_paid := 100 }
      (by with_unfolding_all rfl)

theorem payOf_unfold (r : DMap) (s : ℚ) (h : Shareholder) :
    payOf r s h = quantize (if s < 1
      then (if dgetD r h.name.toLower 0 > 0 then dgetD r h.name.toLower 0 else 0) * s
      else (if dgetD r h.name.toLower 0 > 0 then dgetD r h.name.toLower 0 else 0)) := rfl

theorem posPart_eq_max (q : ℚ) : (if q > 0 then q else 0) = max q 0 := by
  by_cases h : q > 0
  · rw [if_pos h, max_eq_left (le_of_lt h)]
  · rw [if_neg h, max_eq_right (not_lt.mp h)]

/-- C3 as stated fails: with two shareholder names that differ only in
letter case, the `entitlements` and `raw_balances` dicts collapse on the
shared lowercased key, and the payout row of the first shareholder is
computed from the raw balance stored for the second one, not from its own
`max(rawBalance, 0)`. -/
theorem claim_C3_counterexample :
    (compute_distribution "2024-01" [⟨"A", 60⟩, ⟨"a", 40⟩] 100 0
        [("A", 10)] []).toOption.map (fun r => r.rows.map ResultRow.paid) =
      some [40, 40] ∧
    theTP [⟨"A", 60⟩, ⟨"a", 40⟩] 100 0 [("A", 10)] [] ≤ 100 - 0 ∧
    theScale [⟨"A", 60⟩, ⟨"a", 40⟩] 100 0 [("A", 10)] [] = 1 ∧
    ([⟨"A", 60⟩, ⟨"a", 40⟩] : List Shareholder).map (fun h =>
        quantize (max (rawOf (entitlementsOf [⟨"A", 60⟩, ⟨"a", 40⟩] (100 - 0))
          [("A", 10)] [] h) 0)) = [30, 40] ∧
    ¬([40, (40 : ℚ)] = [30, 40]) := by
  have htp : theTP [⟨"A", 60⟩, ⟨"a", 40⟩] 100 0 [("A", 10)] [] = 70 := by
    with_unfolding_all rfl
  refine ⟨by with_unfolding_all rfl, by rw [htp]; norm_num,
    by with_unfolding_all rfl, by with_unfolding_all rfl, ?_⟩
  intro hcontra
  have h40 : (40 : ℚ) = 30 := by injection hcontra
  norm_num at h40

/-- C3 (amended): restricted to holder lists whose lowercased names are
pairwise distinct (so the dicts keyed by lowercased name do not collapse),
in every successful call with `totalPositiveRaw ≤ distributable` the scale
is 1 and each shareholder's `paid` equals its own
`max(entitlement - advance + priorCarry, 0)` rounded to 2 decimal places
with round-half-up. -/
theorem claim_C3_amended (m : String) (hs : List Shareholder) (tc kc : ℚ)
    (a c : DMap) (r : DistributionResult)
    (hok : compute_distribution m hs tc kc a c = Except.ok r)
    (hnd : (hs.map (fun h => h.name.toLower)).Nodup)
    (htp : theTP hs tc kc a c ≤ tc - kc) :
    theScale hs tc kc a c = 1 ∧
    r.rows.map ResultRow.paid = hs.map (fun h =>
      quantize (max ((tc - kc) * h.percent / 100
        - lookup2 a h.name + lookup2 c h.name) 0)) := by
  obtain ⟨h1, h2, h3⟩ := compute_distribution_ok_inv m hs tc kc a c r hok
  have hscale : theScale hs tc kc a c = 1 := by
    unfold theScale scaleOf
    rw [if_neg]
    intro hcond
    exact absurd htp (not_le.mpr hcond.1)
  refine ⟨hscale, ?_⟩
  rw [compute_distribution_ok m hs tc kc a c h1 h2 h3] at hok
  injection hok with hok
  rw [← hok]
  simp only [List.map_map]
  apply List.map_congr_left
  intro h hmem
  show payOf (theRaws hs tc kc a c) (theScale hs tc kc a c) h = _
  have hraw : dgetD (theRaws hs tc kc a c) h.name.toLower 0 =
      rawOf (theEnts hs tc kc) a c h := by
    unfold dgetD
    rw [dget_theRaws_nodup hs tc kc a c h hmem hnd]
    rfl
  have hent : dgetD (theEnts hs tc kc) h.name.toLower 0 =
      (tc - kc) * h.percent / 100 := by
    unfold dgetD theEnts
    rw [dget_ents_nodup hs (tc - kc) h hmem hnd]
    rfl
  rw [hscale, payOf_unfold, hraw, if_neg (lt_irrefl 1), posPart_eq_max]
  unfold rawOf
  rw [hent]

theorem claim_C3_amended_witness :
    compute_distribution "2024-01" [⟨"ali", 60⟩, ⟨"veli", 40⟩] 1000 0 [] [] =
      Except.ok
        { month := "2024-01", distributable := 1000,
          rows := [⟨"ali", 60, 600, 0, 0, 600, 0⟩, ⟨"veli", 40, 400, 0, 0, 400, 0⟩],
          total_entitlement := 1000, total_paid := 1000 } ∧
    ([⟨"ali", 60⟩, ⟨"veli", 40⟩].map
      (fun h : Shareholder => h.name.toLower)).Nodup ∧
    (theScale [⟨"ali", 60⟩, ⟨"veli", 40⟩] 1000 0 [] [] = 1 ∧
      ({ month := "2024-01", distributable := 1000,
         rows := [⟨"ali", 60, 600, 0, 0, 600, 0⟩, ⟨"veli", 40, 400, 0, 0, 400, 0⟩],
         total_entitlement := 1000,
         total_paid := 1000 } : DistributionResult).rows.map ResultRow.paid =
        [⟨"ali", 60⟩, ⟨"veli", 40⟩].map (fun h : Shareholder =>
          quantize (max ((1000 - 0) * h.percent / 100
            - lookup2 [] h.name + lookup2 [] h.name) 0))) := by
  have htp : theTP [⟨"ali", 60⟩, ⟨"veli", 40⟩] 1000 0 [] [] = 1000 := by
    with_unfolding_all rfl
  refine ⟨by with_unfolding_all rfl, by with_unfolding_all decide, ?_⟩
  exact claim_C3_amended "2024-01" [⟨"ali", 60⟩, ⟨"veli", 40⟩] 1000 0 [] []
    { month := "2024-01", distributable := 1000,
      rows := [⟨"ali", 60, 600, 0, 0, 600, 0⟩, ⟨"veli", 40, 400, 0, 0, 400, 0⟩],
      total_entitlement := 1000, total_paid := 1000 }
    (by with_unfolding_all rfl) (by with_unfolding_all decide) (by rw [htp]; norm_num)

/-- C6 as stated fails: `total_entitlement` is the rounding of the sum of
the unrounded entitlements, not the sum of the per-shareholder rounded
entitlements — for two entitlements of 0.005 each, the code returns 0.01
while the claim demands 0.01 + 0.01 = 0.02. -/
theorem claim_C6_counterexample :
    (compute_distribution "2024-01" [⟨"a", 50⟩, ⟨"b", 50⟩] (1 / 100) 0 []
        []).toOption.map
      (fun r => (r.total_entitlement, (r.rows.map ResultRow.entitlement).sum)) =
      some (1 / 100, 1 / 50) ∧
    ¬((1 / 100 : ℚ) = 1 / 50) := by
  refine ⟨by with_unfolding_all rfl, by norm_num⟩

/-- C6 (amended): in every successful call on holders with pairwise-distinct
lowercased names, `total_entitlement` equals the rounding to 2 decimals of
the SUM of the unrounded per-shareholder entitlements (not the sum of the
rounded ones), while `total_paid` does equal the sum of the rounded
per-shareholder payouts (the rows' `paid` fields). -/
theorem claim_C6_amended (m : String) (hs : List Shareholder) (tc kc : ℚ)
    (a c : DMap) (r : DistributionResult)
    (hok : compute_distribution m hs tc kc a c = Except.ok r)
    (hnd : (hs.map (fun h => h.name.toLower)).Nodup) :
    r.total_entitlement =
      quantize ((hs.map (fun h => (tc - kc) * h.percent / 100)).sum) ∧
    r.total_paid = (r.rows.map ResultRow.paid).sum := by
  obtain ⟨h1, h2, h3⟩ := compute_distribution_ok_inv m hs tc kc a c r hok
  rw [compute_distribution_ok m hs tc kc a c h1 h2 h3] at hok
  injection hok with hok
  rw [← hok]
  constructor
  · show quantize (((theEnts hs tc kc).map Prod.snd).foldl (fun s v => s + v) 0) = _
    have hents : theEnts hs tc kc =
        hs.map (fun h => (h.name.toLower, (tc - kc) * h.percent / 100)) := by
      unfold theEnts entitlementsOf
      rw [foldl_dset_of_nodup (fun h : Shareholder => h.name.toLower)
        (fun h => (tc - kc) * h.percent / 100) hs [] (by simp) hnd]
      simp
    rw [hents, foldl_add_eq_sum, List.map_map]
    rw [zero_add]
    congr 1
  · show quantize ((hs.map (payOf (theRaws hs tc kc a c)
        (theScale hs tc kc a c))).sum) = _
    simp only [List.map_map]
    have hcents : isCents ((hs.map (payOf (theRaws hs tc kc a c)
        (theScale hs tc kc a c))).sum) := by
      apply isCents_sum
      intro x hx
      obtain ⟨h0, _, rfl⟩ := List.mem_map.mp hx
      rw [payOf_eq_quantize]
      exact isCents_quantize _
    rw [quantize_cents _ hcents]
    rfl

theorem claim_C6_amended_witness :
    compute_distribution "2024-01" [⟨"ali", 60⟩, ⟨"veli", 40⟩] 1000 0 [] [] =
      Except.ok
        { month := "2024-01", distributable := 1000,
          rows := [⟨"ali", 60, 600, 0, 0, 600, 0⟩, ⟨"veli", 40, 400, 0, 0, 400, 0⟩],
          total_entitlement := 1000, total_paid := 1000 } ∧
    (({ month := "2024-01", distributable := 1000,
        rows := [⟨"ali", 60, 600, 0, 0, 600, 0⟩, ⟨"veli", 40, 400, 0, 0, 400, 0⟩],
        total_entitlement := 1000,
        total_paid := 1000 } : DistributionResult).total_entitlement =
      quantize (([⟨"ali", 60⟩, ⟨"veli", 40⟩].map
        (fun h : Shareholder => (1000 - 0) * h.percent / 100)).sum) ∧
    ({ month := "2024-01", distributable := 1000,
        rows := [⟨"ali", 60, 600, 0, 0, 600, 0⟩, ⟨"veli", 40, 400, 0, 0, 400, 0⟩],
        total_entitlement := 1000,
        total_paid := 1000 } : DistributionResult).total_paid =
      (([⟨"ali", 60, 600, 0, 0, 600, 0⟩,
         ⟨"veli", 40, 400, 0, 0, 400, 0⟩] : List ResultRow).map
        ResultRow.paid).sum) := by
  refine ⟨by with_unfolding_all rfl, ?_⟩
  exact claim_C6_amended "2024-01" [⟨"ali", 60⟩, ⟨"veli", 40⟩] 1000 0 [] []
    { month := "2024-01", distributable := 1000,
      rows := [⟨"ali", 60, 600, 0, 0, 600, 0⟩, ⟨"veli", 40, 400, 0, 0, 400, 0⟩],
      total_entitlement := 1000, total_paid := 1000 }
    (by with_unfolding_all rfl) (by with_unfolding_all decide)

/-- C7: the advance and prior-carry values used for each shareholder are
obtained by looking up the exact name first, then the lowercased name,
defaulting to zero (the rows' `advance` and `prev_carry` fields are the
rounded values of exactly that lookup), and consequently two advance/carry
dicts that agree on every holder's exact and lowercased name produce
identical results — entries under any other key have no effect. -/
theorem claim_C7_lookup (m : String) (hs : List Shareholder) (tc kc : ℚ)
    (a a2 c c2 : DMap)
    (hA : ∀ h ∈ hs, dget a h.name = dget a2 h.name ∧
      dget a h.name.toLower = dget a2 h.name.toLower)
    (hC : ∀ h ∈ hs, dget c h.name = dget c2 h.name ∧
      dget c h.name.toLower = dget c2 h.name.toLower) :
    compute_distribution m hs tc kc a c = compute_distribution m hs tc kc a2 c2 ∧
    (∀ r, compute_distribution m hs tc kc a c = Except.ok r →
      r.rows.map ResultRow.advance = hs.map (fun h =>
        quantize ((dget a h.name).getD ((dget a h.name.toLower).getD 0))) ∧
      r.rows.map ResultRow.prev_carry = hs.map (fun h =>
        quantize ((dget c h.name).getD ((dget c h.name.toLower).getD 0)))) := by
  have hla : ∀ h ∈ hs, lookup2 a h.name = lookup2 a2 h.name := by
    intro h hh
    unfold lookup2 dgetD
    rw [(hA h hh).1, (hA h hh).2]
  have hlc : ∀ h ∈ hs, lookup2 c h.name = lookup2 c2 h.name := by
    intro h hh
    unfold lookup2 dgetD
    rw [(hC h hh).1, (hC h hh).2]
  have hrawOf : ∀ e : DMap, ∀ h ∈ hs, rawOf e a c h = rawOf e a2 c2 h := by
    intro e h hh
    unfold rawOf
    rw [hla h hh, hlc h hh]
  have hrs : ∀ e : DMap, rawState hs e a c = rawState hs e a2 c2 := by
    intro e
    unfold rawState
    apply List.foldl_ext
    intro st h hh
    unfold rawStep
    rw [hrawOf e h hh]
  have hrows : ∀ (e rw2 : DMap) (sc : ℚ),
      rowsState hs e rw2 a c sc = rowsState hs e rw2 a2 c2 sc := by
    intro e rw2 sc
    unfold rowsState
    apply List.foldl_ext
    intro st h hh
    unfold rowStep
    rw [hla h hh, hlc h hh]
  constructor
  · unfold compute_distribution
    cases hv : validate_shareholders hs with
    | error e => rfl
    | ok u =>
      by_cases hkc : kc < 0
      · simp only [if_pos hkc]
      · by_cases hdd : tc - kc < 0
        · simp only [if_neg hkc, if_pos hdd]
        · simp only [if_neg hkc, if_neg hdd]
          rw [hrs (entitlementsOf hs (tc - kc)),
            hrows (entitlementsOf hs (tc - kc))
              (rawState hs (entitlementsOf hs (tc - kc)) a2 c2).1
              (scaleOf (tc - kc) (rawState hs (entitlementsOf hs (tc - kc)) a2 c2).2)]
  · intro r hok
    obtain ⟨h1, h2, h3⟩ := compute_distribution_ok_inv m hs tc kc a c r hok
    rw [compute_distribution_ok m hs tc kc a c h1 h2 h3] at hok
    injection hok with hok
    rw [← hok]
    constructor
    · simp only [List.map_map]
      apply List.map_congr_left
      intro h _
      rfl
    · simp only [List.map_map]
      apply List.map_congr_left
      intro h _
      rfl

theorem claim_C7_lookup_witness :
    compute_distribution "2024-01" [⟨"ali", 60⟩, ⟨"veli", 40⟩] 1000 0
        [("baska", 7)] [] =
      compute_distribution "2024-01" [⟨"ali", 60⟩, ⟨"veli", 40⟩] 1000 0 [] [] ∧
    (∀ r, compute_distribution "2024-01" [⟨"ali", 60⟩, ⟨"veli", 40⟩] 1000 0
        [("baska", 7)] [] = Except.ok r →
      r.rows.map ResultRow.advance =
        [⟨"ali", 60⟩, ⟨"veli", 40⟩].map (fun h : Shareholder =>
          quantize ((dget [("baska", 7)] h.name).getD
            ((dget [("baska", 7)] h.name.toLower).getD 0))) ∧
      r.rows.map ResultRow.prev_carry =
        [⟨"ali", 60⟩, ⟨"veli", 40⟩].map (fun h : Shareholder =>
          quantize ((dget [] h.name).getD ((dget [] h.name.toLower).getD 0)))) :=
  claim_C7_lookup "2024-01" [⟨"ali", 60⟩, ⟨"veli", 40⟩] 1000 0
    [("baska", 7)] [] [] []
    (by with_unfolding_all decide) (by with_unfolding_all decide)

/-- C1 as stated fails: rounding half-up can push `total_paid` above the
distributable amount. With two 50% holders and `total_cash = 0.01`, each
entitlement 0.005 rounds up to 0.01, so `total_paid = 0.02 > 0.01`,
although `totalPositiveRaw = 0.01 ≤ distributable`. -/
theorem claim_C1_counterexample :
    (compute_distribution "2024-01" [⟨"a", 50⟩, ⟨"b", 50⟩] (1 / 100) 0 []
        []).toOption.map DistributionResult.total_paid = some (1 / 50) ∧
    theTP [⟨"a", 50⟩, ⟨"b", 50⟩] (1 / 100) 0 [] [] ≤ (1 / 100 : ℚ) - 0 ∧
    ¬((1 / 50 : ℚ) ≤ (1 / 100 : ℚ) - 0) := by
  have htp : theTP [⟨"a", 50⟩, ⟨"b", 50⟩] (1 / 100) 0 [] [] = 1 / 100 := by
    with_unfolding_all rfl
  refine ⟨by with_unfolding_all rfl, by rw [htp]; norm_num, by norm_num⟩

/-- C1 (amended): in every successful call on holders with
pairwise-distinct lowercased names, `total_paid` never exceeds the
distributable amount by more than the rounding slack of half a cent per
shareholder: `total_paid ≤ (total_cash - keep_cash) + n * 0.005`, where `n`
is the number of shareholders. The exact bound `total_paid ≤ distributable`
of the original claim fails only by this rounding slack. -/
theorem claim_C1_amended (m : String) (hs : List Shareholder) (tc kc : ℚ)
    (a c : DMap) (r : DistributionResult)
    (hok : compute_distribution m hs tc kc a c = Except.ok r)
    (hnd : (hs.map (fun h => h.name.toLower)).Nodup) :
    r.total_paid ≤ (tc - kc) + hs.length * (1 / 200) := by
  obtain ⟨h1, h2, h3⟩ := compute_distribution_ok_inv m hs tc kc a c r hok
  have hd : 0 ≤ tc - kc := not_lt.mp h3
  have hs0 : 0 ≤ theScale hs tc kc a c := theScale_nonneg hs tc kc a c hd
  rw [compute_distribution_ok m hs tc kc a c h1 h2 h3] at hok
  injection hok with hok
  rw [← hok]
  show quantize ((hs.map (payOf (theRaws hs tc kc a c)
      (theScale hs tc kc a c))).sum) ≤ _
  have hcents : isCents ((hs.map (payOf (theRaws hs tc kc a c)
      (theScale hs tc kc a c))).sum) := by
    apply isCents_sum
    intro x hx
    obtain ⟨h0, _, rfl⟩ := List.mem_map.mp hx
    rw [payOf_eq_quantize]
    exact isCents_quantize _
  rw [quantize_cents _ hcents]
  have hstep2 : (hs.map (payOf (theRaws hs tc kc a c)
      (theScale hs tc kc a c))).sum ≤
      (hs.map (fun h => payPre (theRaws hs tc kc a c)
        (theScale hs tc kc a c) h + 1 / 200)).sum := by
    apply List.sum_le_sum
    intro h _
    rw [payOf_eq_quantize]
    exact quantize_le _ (payPre_nonneg _ _ hs0 h)
  have hstep3 : (hs.map (fun h => payPre (theRaws hs tc kc a c)
      (theScale hs tc kc a c) h + 1 / 200)).sum =
      (hs.map (payPre (theRaws hs tc kc a c) (theScale hs tc kc a c))).sum +
        hs.length * (1 / 200) :=
    sum_map_add_const hs _ _
  have hraw : ∀ h ∈ hs, dgetD (theRaws hs tc kc a c) h.name.toLower 0 =
      rawOf (theEnts hs tc kc) a c h := by
    intro h hmem
    unfold dgetD
    rw [dget_theRaws_nodup hs tc kc a c h hmem hnd]
    rfl
  have hstep4 : (hs.map (payPre (theRaws hs tc kc a c)
      (theScale hs tc kc a c))).sum ≤ tc - kc := by
    by_cases hcond : theTP hs tc kc a c > tc - kc ∧ theTP hs tc kc a c > 0
    · have hscale : theScale hs tc kc a c =
          (tc - kc) / theTP hs tc kc a c := by
        unfold theScale scaleOf
        rw [if_pos hcond]
      have hlt1 : theScale hs tc kc a c < 1 := by
        rw [hscale]
        exact (div_lt_one hcond.2).mpr hcond.1
      have hmapeq : hs.map (payPre (theRaws hs tc kc a c)
          (theScale hs tc kc a c)) =
          hs.map (fun h => (if rawOf (theEnts hs tc kc) a c h > 0
            then rawOf (theEnts hs tc kc) a c h else 0) *
              theScale hs tc kc a c) := by
        apply List.map_congr_left
        intro h hmem
        unfold payPre
        rw [hraw h hmem, if_pos hlt1]
      rw [hmapeq, List.sum_map_mul_right, ← theTP_eq]
      rw [hscale, mul_comm, div_mul_cancel₀ (tc - kc) (ne_of_gt hcond.2)]
    · have hscale : theScale hs tc kc a c = 1 := by
        unfold theScale scaleOf
        rw [if_neg hcond]
      have hmapeq : hs.map (payPre (theRaws hs tc kc a c)
          (theScale hs tc kc a c)) =
          hs.map (fun h => if rawOf (theEnts hs tc kc) a c h > 0
            then rawOf (theEnts hs tc kc) a c h else 0) := by
        apply List.map_congr_left
        intro h hmem
        unfold payPre
        rw [hraw h hmem, hscale, if_neg (lt_irrefl 1)]
      rw [hmapeq, ← theTP_eq]
      rcases not_and_or.mp hcond with hc | hc
      · exact not_lt.mp hc
      · have := theTP_nonneg hs tc kc a c
        have hz : theTP hs tc kc a c = 0 := le_antisymm (not_lt.mp hc) this
        rw [hz]
        exact hd
  calc (hs.map (payOf (theRaws hs tc kc a c) (theScale hs tc kc a c))).sum
      ≤ (hs.map (fun h => payPre (theRaws hs tc kc a c)
          (theScale hs tc kc a c) h + 1 / 200)).sum := hstep2
    _ = (hs.map (payPre (theRaws hs tc kc a c)
          (theScale hs tc kc a c))).sum + hs.length * (1 / 200) := hstep3
    _ ≤ (tc - kc) + hs.length * (1 / 200) := by
        exact add_le_add_right hstep4 _

theorem claim_C1_amended_witness :
    compute_distribution "2024-01" [⟨"ali", 60⟩, ⟨"veli", 40⟩] 1000 0 [] [] =
      Except.ok
        { month := "2024-01", distributable := 1000,
          rows := [⟨"ali", 60, 600, 0, 0, 600, 0⟩, ⟨"veli", 40, 400, 0, 0, 400, 0⟩],
          total_entitlement := 1000, total_paid := 1000 } ∧
    ({ month := "2024-01", distributable := 1000,
       rows := [⟨"ali", 60, 600, 0, 0, 600, 0⟩, ⟨"veli", 40, 400, 0, 0, 400, 0⟩],
       total_entitlement := 1000,
       total_paid := 1000 } : DistributionResult).total_paid ≤
      (1000 - 0) + ([⟨"ali", 60⟩, ⟨"veli", 40⟩] : List Shareholder).length *
        (1 / 200) := by
  refine ⟨by with_unfolding_all rfl, ?_⟩
  exact claim_C1_amended "2024-01" [⟨"ali", 60⟩, ⟨"veli", 40⟩] 1000 0 [] []
    { month := "2024-01", distributable := 1000,
      rows := [⟨"ali", 60, 600, 0, 0, 600, 0⟩, ⟨"veli", 40, 400, 0, 0, 400, 0⟩],
      total_entitlement := 1000, total_paid := 1000 }
    (by with_unfolding_all rfl) (by with_unfolding_all decide)

/-! ### Carry round-trip (C5) -/

/-- The carry dict a caller persists after a successful call: the rows of
that call keyed by row name. -/
def nextCarry (hs : List Shareholder) (tc kc : ℚ) (a c : DMap) : DMap :=
  carryOf (hs.map (rowOf (theEnts hs tc kc) (theRaws hs tc kc a c) a c
    (theScale hs tc kc a c)))

theorem lookup2_nil (k : String) : lookup2 [] k = 0 := rfl

theorem isCents_newCarryK (r : DMap) (s : ℚ) (k : String) :
    isCents (newCarryK r s k) := by
  unfold newCarryK
  exact isCents_quantize _

theorem newCarryK_eq (r : DMap) (s : ℚ) (k : String) :
    newCarryK r s k = quantize (dgetD r k 0 -
      quantize (if s < 1
        then (if dgetD r k 0 > 0 then dgetD r k 0 else 0) * s
        else (if dgetD r k 0 > 0 then dgetD r k 0 else 0))) := rfl

theorem ents_zero_dgetD (hs : List Shareholder) (k : String) :
    dgetD (theEnts hs 0 0) k 0 = 0 := by
  unfold dgetD theEnts
  rw [dget_entitlementsOf]
  cases hf : hs.reverse.find? (fun h => h.name.toLower == k) with
  | none => rfl
  | some x =>
    show (0 - 0 : ℚ) * x.percent / 100 = 0
    norm_num

theorem find?_rows_name (e r a2 c2 : DMap) (s : ℚ) (l : List Shareholder)
    (n : String) :
    (l.map (rowOf e r a2 c2 s)).find? (fun row => row.name == n) =
      (l.find? (fun h => h.name == n)).map (rowOf e r a2 c2 s) := by
  rw [List.find?_map]
  rfl

theorem dget_nextCarry (hs : List Shareholder) (tc kc : ℚ) (a c : DMap)
    (h : Shareholder) (hmem : h ∈ hs) :
    dget (nextCarry hs tc kc a c) h.name =
      some (newCarryK (theRaws hs tc kc a c) (theScale hs tc kc a c)
        h.name.toLower) := by
  unfold nextCarry
  rw [dget_carryOf, ← List.map_reverse, find?_rows_name]
  have hex : (hs.reverse.find? (fun x => x.name == h.name)).isSome := by
    rw [List.find?_isSome]
    exact ⟨h, List.mem_reverse.mpr hmem, by simp⟩
  obtain ⟨x, hx⟩ := Option.isSome_iff_exists.mp hex
  rw [hx]
  have hname : x.name = h.name := by simpa using List.find?_some hx
  show some (newCarryK (theRaws hs tc kc a c) (theScale hs tc kc a c)
    x.name.toLower) = _
  rw [hname]

theorem rawOf_call2 (hs : List Shareholder) (tc kc : ℚ) (a c : DMap)
    (h : Shareholder) (hmem : h ∈ hs) :
    rawOf (theEnts hs 0 0) [] (nextCarry hs tc kc a c) h =
      newCarryK (theRaws hs tc kc a c) (theScale hs tc kc a c)
        h.name.toLower := by
  unfold rawOf
  rw [ents_zero_dgetD, lookup2_nil]
  have hlc : lookup2 (nextCarry hs tc kc a c) h.name =
      newCarryK (theRaws hs tc kc a c) (theScale hs tc kc a c)
        h.name.toLower := by
    unfold lookup2 dgetD
    rw [dget_nextCarry hs tc kc a c h hmem]
    rfl
  rw [hlc]
  ring

theorem stored_call2 (hs : List Shareholder) (tc kc : ℚ) (a c : DMap)
    (h : Shareholder) (hmem : h ∈ hs) :
    dgetD (theRaws hs 0 0 [] (nextCarry hs tc kc a c)) h.name.toLower 0 =
      newCarryK (theRaws hs tc kc a c) (theScale hs tc kc a c)
        h.name.toLower := by
  unfold dgetD
  rw [dget_theRaws]
  have hex : (hs.reverse.find? (fun x =>
      x.name.toLower == h.name.toLower)).isSome := by
    rw [List.find?_isSome]
    exact ⟨h, List.mem_reverse.mpr hmem, by simp⟩
  obtain ⟨x, hx⟩ := Option.isSome_iff_exists.mp hex
  rw [hx]
  have hkey : x.name.toLower = h.name.toLower := by
    simpa using List.find?_some hx
  have hxmem : x ∈ hs := List.mem_reverse.mp (List.mem_of_find?_eq_some hx)
  show rawOf (theEnts hs 0 0) [] (nextCarry hs tc kc a c) x = _
  rw [rawOf_call2 hs tc kc a c x hxmem, hkey]

theorem pay_call2 (hs : List Shareholder) (tc kc : ℚ) (a c : DMap)
    (h : Shareholder) (hmem : h ∈ hs) :
    payOf (theRaws hs 0 0 [] (nextCarry hs tc kc a c))
      (theScale hs 0 0 [] (nextCarry hs tc kc a c)) h = 0 := by
  by_cases hpos : theTP hs 0 0 [] (nextCarry hs tc kc a c) > 0
  · have hS : theScale hs 0 0 [] (nextCarry hs tc kc a c) = 0 := by
      unfold theScale scaleOf
      rw [if_pos ⟨by rw [show ((0 : ℚ) - 0) = 0 by norm_num]; exact hpos, hpos⟩]
      rw [show ((0 : ℚ) - 0) = 0 by norm_num, zero_div]
    rw [payOf_unfold, hS, if_pos (by norm_num : (0 : ℚ) < 1), mul_zero,
      quantize_zero]
  · have htp0 : theTP hs 0 0 [] (nextCarry hs tc kc a c) = 0 :=
      le_antisymm (not_lt.mp hpos) (theTP_nonneg hs 0 0 [] (nextCarry hs tc kc a c))
    have hS : theScale hs 0 0 [] (nextCarry hs tc kc a c) = 1 := by
      unfold theScale scaleOf
      rw [if_neg]
      intro hc
      exact hpos hc.2
    have hnn : ∀ x ∈ hs.map (fun h2 =>
        if rawOf (theEnts hs 0 0) [] (nextCarry hs tc kc a c) h2 > 0
        then rawOf (theEnts hs 0 0) [] (nextCarry hs tc kc a c) h2 else 0),
        0 ≤ x := by
      intro x hx
      obtain ⟨h2, _, rfl⟩ := List.mem_map.mp hx
      by_cases hr : rawOf (theEnts hs 0 0) [] (nextCarry hs tc kc a c) h2 > 0
      · rw [if_pos hr]; exact le_of_lt hr
      · rw [if_neg hr]
    have hterm : (if rawOf (theEnts hs 0 0) [] (nextCarry hs tc kc a c) h > 0
        then rawOf (theEnts hs 0 0) [] (nextCarry hs tc kc a c) h else 0) ≤ 0 := by
      have hmem2 := List.mem_map_of_mem (fun h2 =>
        if rawOf (theEnts hs 0 0) [] (nextCarry hs tc kc a c) h2 > 0
        then rawOf (theEnts hs 0 0) [] (nextCarry hs tc kc a c) h2 else 0) hmem
      have hle := List.single_le_sum hnn _ hmem2
      rw [← theTP_eq, htp0] at hle
      exact hle
    have hraw_le : rawOf (theEnts hs 0 0) [] (nextCarry hs tc kc a c) h ≤ 0 := by
      by_cases hgt : rawOf (theEnts hs 0 0) [] (nextCarry hs tc kc a c) h > 0
      · rw [if_pos hgt] at hterm
        exact absurd hterm (not_le.mpr hgt)
      · exact not_lt.mp hgt
    have hstored_le : dgetD (theRaws hs 0 0 [] (nextCarry hs tc kc a c))
        h.name.toLower 0 ≤ 0 := by
      rw [stored_call2 hs tc kc a c h hmem,
        ← rawOf_call2 hs tc kc a c h hmem]
      exact hraw_le
    rw [payOf_unfold, hS, if_neg (lt_irrefl 1),
      if_neg (not_lt.mpr hstored_le), quantize_zero]

/-- C5: feeding the per-row `new_carry` values of a successful call back as
the carry dict (keyed by row name) with the same shareholders, zero cash,
zero reserve and no advances succeeds and reproduces exactly the same
`new_carry` values. -/
theorem claim_C5_carry_roundtrip (m m2 : String) (hs : List Shareholder)
    (tc kc : ℚ) (a c : DMap) (r1 : DistributionResult)
    (hok : compute_distribution m hs tc kc a c = Except.ok r1) :
    ∃ r2, compute_distribution m2 hs 0 0 [] (carryOf r1.rows) = Except.ok r2 ∧
      r2.rows.map ResultRow.new_carry = r1.rows.map ResultRow.new_carry := by
  obtain ⟨h1, h2, h3⟩ := compute_distribution_ok_inv m hs tc kc a c r1 hok
  rw [compute_distribution_ok m hs tc kc a c h1 h2 h3] at hok
  injection hok with hok
  rw [← hok]
  refine ⟨_, compute_distribution_ok m2 hs 0 0 [] (nextCarry hs tc kc a c) h1
    (by norm_num) (by norm_num), ?_⟩
  simp only [List.map_map]
  apply List.map_congr_left
  intro h hmem
  show (rowOf (theEnts hs 0 0) (theRaws hs 0 0 [] (nextCarry hs tc kc a c))
      [] (nextCarry hs tc kc a c) (theScale hs 0 0 [] (nextCarry hs tc kc a c))
      h).new_carry =
    (rowOf (theEnts hs tc kc) (theRaws hs tc kc a c) a c
      (theScale hs tc kc a c) h).new_carry
  rw [rowOf_new_carry, rowOf_new_carry, newCarryK_eq, ← payOf_unfold,
    pay_call2 hs tc kc a c h hmem, sub_zero,
    stored_call2 hs tc kc a c h hmem,
    quantize_cents _ (isCents_newCarryK _ _ _)]

theorem claim_C5_carry_roundtrip_witness :
    compute_distribution "2024-01" [⟨"a", 50⟩, ⟨"b", 50⟩] 100 0 [] [("a", 150)] =
      Except.ok
        { month := "2024-01", distributable := 100,
          rows := [⟨"a", 50, 50, 0, 150, 80, 120⟩, ⟨"b", 50, 50, 0, 0, 20, 30⟩],
          total_entitlement := 100, total_paid := 100 } ∧
    (∃ r2, compute_distribution "2024-02" [⟨"a", 50⟩, ⟨"b", 50⟩] 0 0 []
        (carryOf ({ month := "2024-01", distributable := 100,
                    rows := [⟨"a", 50, 50, 0, 150, 80, 120⟩,
                             ⟨"b", 50, 50, 0, 0, 20, 30⟩],
                    total_entitlement := 100,
                    total_paid := 100 } : DistributionResult).rows) =
          Except.ok r2 ∧
      r2.rows.map ResultRow.new_carry =
        ({ month := "2024-01", distributable := 100,
           rows := [⟨"a", 50, 50, 0, 150, 80, 120⟩, ⟨"b", 50, 50, 0, 0, 20, 30⟩],
           total_entitlement := 100,
           total_paid := 100 } : DistributionResult).rows.map
          ResultRow.new_carry) := by
  refine ⟨by with_unfolding_all rfl, ?_⟩
  exact claim_C5_carry_roundtrip "2024-01" "2024-02" [⟨"a", 50⟩, ⟨"b", 50⟩]
    100 0 [] [("a", 150)]
    { month := "2024-01", distributable := 100,
      rows := [⟨"a", 50, 50, 0, 150, 80, 120⟩, ⟨"b", 50, 50, 0, 0, 20, 30⟩],
      total_entitlement := 100, total_paid := 100 }
    (by with_unfolding_all rfl)

end Kasa
